import Mathlib

/-!
Verification of the inline-object scanner from `src/objects/mod.rs`.

The scanner works on the raw bytes of the input string, so the embedding
represents input as a list of byte values (`List Nat`, each < 256 for real
inputs, though no bound is needed for the algorithm itself).  The ten
construct recognizers (snippet, macro, radio target, target, footnote
reference, link, cookie, emphasis, inline source, inline call) live in
sibling modules that are external to the scanning core; they are modelled
as an abstract record of functions (`Recognizers`), mirroring the uniform
interface `recognize(tail) -> Option (fields..., consumed_length)`.
-/

namespace Orgize

/-- Byte strings: the scanner operates on the raw bytes of the input. -/
abbrev Bstr : Type := List Nat

/-- The inline-object model (source: the `Object` enum in objects/mod.rs).
Borrowed string slices become byte lists; `Bold`/`Italic`/`Strike`/`Underline`
carry the byte offset `e` of the closing marker. -/
inductive Object : Type where
  | Cookie (payload : Bstr)
  | FnRef (label : Option Bstr) (defn : Option Bstr)
  | InlineCall (name : Bstr) (args : Bstr) (insideHeader : Option Bstr) (endHeader : Option Bstr)
  | InlineSrc (lang : Bstr) (opt : Option Bstr) (body : Bstr)
  | Link (path : Bstr) (desc : Option Bstr)
  | Macros (name : Bstr) (args : Option Bstr)
  | RadioTarget (tgt : Bstr)
  | Snippet (name : Bstr) (value : Bstr)
  | Target (tgt : Bstr)
  | Bold (e : Nat)
  | Italic (e : Nat)
  | Strike (e : Nat)
  | Underline (e : Nat)
  | Verbatim (s : Bstr)
  | Code (s : Bstr)
  | Text (s : Bstr)
  deriving DecidableEq

/-- True exactly on the `Text` variant. -/
def Object.isText : Object → Bool
  | Object.Text _ => true
  | _ => false

/-- The external construct recognizers, one field per sibling module of
objects/mod.rs.  Each takes the tail slice starting at the candidate byte
and returns its fields plus a consumed length, or `none`.  The emphasis
matcher takes the marker byte and returns the offset of the closing marker. -/
structure Recognizers : Type where
  snippet : Bstr → Option (Bstr × Bstr × Nat)
  macros : Bstr → Option (Bstr × Option Bstr × Nat)
  radioTarget : Bstr → Option (Bstr × Nat)
  target : Bstr → Option (Bstr × Nat)
  fnRef : Bstr → Option (Option Bstr × Option Bstr × Nat)
  link : Bstr → Option (Bstr × Option Bstr × Nat)
  cookie : Bstr → Option (Bstr × Nat)
  emphasis : Bstr → Nat → Option Nat
  inlineSrc : Bstr → Option (Bstr × Option Bstr × Bstr × Nat)
  inlineCall : Bstr → Option (Bstr × Bstr × Option Bstr × Option Bstr × Nat)

/-- Membership in the jetscii trigger-byte set
`bytes!(b'@', b' ', b'"', b'(', b'\n', b'{', b'<', b'[')`:
64 = at sign, 32 = space, 34 = double quote, 40 = open paren,
10 = newline, 123 = open brace, 60 = less-than, 91 = open bracket. -/
def isTrigger (b : Nat) : Bool :=
  b == 64 || b == 32 || b == 34 || b == 40 || b == 10 || b == 123 || b == 60 || b == 91

/-- `bs.find`, the jetscii search: index of the first trigger byte. -/
def bsFind : Bstr → Option Nat
  | [] => none
  | b :: rest => if isTrigger b then some 0 else (bsFind rest).map (fun i => i + 1)

/-- Bytes of the literal prefix checked before trying the inline-source
recognizer: 115 114 99 95 spells lowercase s, r, c, underscore. -/
def srcPre : Bstr := [115, 114, 99, 95]

/-- Bytes of the literal prefix checked before trying the inline-call
recognizer: 99 97 108 108 95 spells lowercase c, a, l, l, underscore. -/
def callPre : Bstr := [99, 97, 108, 108, 95]

/-- Bytes of the literal checked by the footnote arm, lowercase f, n, colon. -/
def fnPre : Bstr := [102, 110, 58]

/-- The markup-start dispatcher `parse_text_markup` of objects/mod.rs:
dispatch on the first byte of the slice.  42 = asterisk, 43 = plus,
47 = slash, 95 = underscore, 61 = equals, 126 = tilde, 115 = s, 99 = c.
The equals/tilde arms extract the bytes strictly between the markers,
mirroring the slice from index 1 up to (excluding) index `e`. -/
def parse_text_markup (R : Recognizers) (s : Bstr) : Option (Object × Nat) :=
  let b := s.getD 0 0
  if b = 42 then (R.emphasis s 42).map (fun e => (Object.Bold e, 1))
  else if b = 43 then (R.emphasis s 43).map (fun e => (Object.Strike e, 1))
  else if b = 47 then (R.emphasis s 47).map (fun e => (Object.Italic e, 1))
  else if b = 95 then (R.emphasis s 95).map (fun e => (Object.Underline e, 1))
  else if b = 61 then
    (R.emphasis s 61).map (fun e => (Object.Verbatim ((s.drop 1).take (e - 1)), e + 1))
  else if b = 126 then
    (R.emphasis s 126).map (fun e => (Object.Code ((s.drop 1).take (e - 1)), e + 1))
  else if b = 115 ∧ srcPre.isPrefixOf s then
    (R.inlineSrc s).map (fun x => (Object.InlineSrc x.1 x.2.1 x.2.2.1, x.2.2.2))
  else if b = 99 ∧ callPre.isPrefixOf s then
    (R.inlineCall s).map (fun x => (Object.InlineCall x.1 x.2.1 x.2.2.1 x.2.2.2.1, x.2.2.2.2))
  else none

/-- Membership in the context-byte set of the match arm
`b'{' | b' ' | b'"' | b',' | b'(' | b'\n'`:
123 = open brace, 32 = space, 34 = double quote, 44 = comma,
40 = open paren, 10 = newline. -/
def contextByte (b : Nat) : Bool :=
  b == 123 || b == 32 || b == 34 || b == 44 || b == 40 || b == 10

/-- The per-byte dispatcher: the body of the `match bytes[pos]` statement in
`parse`.  On success it returns the object, the consumed length reported by
the accepting recognizer, and the absolute position of the byte that was
examined (`pos`, or `pos + 1` when a context byte was skipped).  The arm
order and fall-through behaviour mirror the Rust match exactly: a pattern
whose guard fails falls to the later arms, while a taken arm whose
recognizer rejects yields `none` (the loop then advances). -/
def dispatch (R : Recognizers) (src : Bstr) (pos : Nat) : Option (Object × Nat × Nat) :=
  let tail := src.drop pos
  let b := src.getD pos 0
  if b = 64 ∧ src.getD (pos + 1) 0 = 64 then
    (R.snippet tail).map (fun x => (Object.Snippet x.1 x.2.1, x.2.2, pos))
  else if b = 123 ∧ src.getD (pos + 1) 0 = 123 ∧ src.getD (pos + 2) 0 = 123 then
    (R.macros tail).map (fun x => (Object.Macros x.1 x.2.1, x.2.2, pos))
  else if b = 60 ∧ src.getD (pos + 1) 0 = 60 then
    if src.getD (pos + 2) 0 = 60 then
      (R.radioTarget tail).map (fun x => (Object.RadioTarget x.1, x.2, pos))
    else if src.getD (pos + 2) 0 ≠ 10 then
      (R.target tail).map (fun x => (Object.Target x.1, x.2, pos))
    else none
  else if b = 91 then
    (if fnPre.isPrefixOf (tail.drop 1) then
       (R.fnRef tail).map (fun x => (Object.FnRef x.1 x.2.1, x.2.2, pos))
     else none).orElse (fun _ =>
      (if src.getD (pos + 1) 0 = 91 then
         (R.link tail).map (fun x => (Object.Link x.1 x.2.1, x.2.2, pos))
       else none).orElse (fun _ =>
        (R.cookie tail).map (fun x => (Object.Cookie x.1, x.2, pos))))
  else if contextByte b then
    (parse_text_markup R (tail.drop 1)).map (fun x => (x.1, x.2, pos + 1))
  else
    (parse_text_markup R tail).map (fun x => (x.1, x.2, pos))

/-- The `brk!` macro of `parse`: package an accepted match whose examined
byte sat at absolute position `p`. -/
def brkResult (src : Bstr) (obj : Object) (off p : Nat) :
    Object × Nat × Option (Object × Nat) :=
  if p = 0 then (obj, off, none)
  else (Object.Text (src.take p), p, some (obj, off))

/-- The scan loop of `parse`, fuel-indexed so that it is structurally
recursive and computable by the kernel.  Every iteration moves `pos`
strictly forward, so fuel `src.length + 1` always suffices (proved below);
the fuel-exhausted default returns the same triple as the no-match
fallback. -/
def parseLoop (R : Recognizers) (src : Bstr) : Nat → Nat → Object × Nat × Option (Object × Nat)
  | 0, _ => (Object.Text src, src.length, none)
  | fuel + 1, pos =>
    match (if pos = 0 then some 0 else bsFind (src.drop pos)) with
    | none => (Object.Text src, src.length, none)
    | some off =>
      let p := pos + off
      if src.length - p < 3 then (Object.Text src, src.length, none)
      else
        match dispatch R src p with
        | some (obj, mlen, q) => brkResult src obj mlen q
        | none => parseLoop R src fuel (p + 1)

/-- The entry point `parse` of objects/mod.rs (called `scan` in the spec). -/
def parse (R : Recognizers) (src : Bstr) : Object × Nat × Option (Object × Nat) :=
  parseLoop R src (src.length + 1) 0

/-- Whitespace test used by the emphasis-delimiter contract:
32 = space, 9 = tab, 10 = newline, 13 = carriage return. -/
def wsB (b : Nat) : Bool := b == 32 || b == 9 || b == 10 || b == 13

/-- True when the byte string contains no two adjacent newline bytes. -/
def noDoubleNl : Bstr → Bool
  | [] => true
  | [_] => true
  | a :: b :: r => !(a == 10 && b == 10) && noDoubleNl (b :: r)

/-- Modelled from the spec: the emphasis-delimiter matcher contract of
section 4.4, whose implementation (the `emphasis` sibling module) is not
part of the scanning core.  Given the slice starting at the opening marker
byte (the convention fixed by the spec examples: offset 5 for the bold
slice, offset 9 for the verbatim slice), it returns the offset of the
nearest closing occurrence of the marker such that the byte after the
opener is not whitespace, the byte before the closer is not whitespace,
and no blank line (adjacent newlines) occurs inside the span. -/
def emphSpec (s : Bstr) (m : Nat) : Option Nat :=
  if wsB (s.getD 1 0) then none
  else
    (List.range s.length).find? (fun e =>
      decide (2 ≤ e) && decide (s.getD e 0 = m) && !wsB (s.getD (e - 1) 0) &&
        noDoubleNl ((s.drop 1).take (e - 1)))

/-- A concrete recognizer bundle used to instantiate the hypotheses of the
theorems below: the emphasis matcher follows the spec contract, every other
recognizer rejects. -/
def Rspec : Recognizers where
  snippet := fun _ => none
  macros := fun _ => none
  radioTarget := fun _ => none
  target := fun _ => none
  fnRef := fun _ => none
  link := fun _ => none
  cookie := fun _ => none
  emphasis := emphSpec
  inlineSrc := fun _ => none
  inlineCall := fun _ => none

/-- The recognizer contracts of spec sections 3 and 6: a consumed length is
measured from the first byte of the tail slice and never exceeds it, and
the emphasis matcher returns the offset of the closing marker byte, which
is strictly positive and in bounds. -/
structure Contract (R : Recognizers) : Prop where
  snippet : ∀ s x, R.snippet s = some x → x.2.2 ≤ s.length
  macros : ∀ s x, R.macros s = some x → x.2.2 ≤ s.length
  radioTarget : ∀ s x, R.radioTarget s = some x → x.2 ≤ s.length
  target : ∀ s x, R.target s = some x → x.2 ≤ s.length
  fnRef : ∀ s x, R.fnRef s = some x → x.2.2 ≤ s.length
  link : ∀ s x, R.link s = some x → x.2.2 ≤ s.length
  cookie : ∀ s x, R.cookie s = some x → x.2 ≤ s.length
  emphasis : ∀ s m e, R.emphasis s m = some e → 0 < e ∧ e < s.length ∧ s.getD e 0 = m
  inlineSrc : ∀ s x, R.inlineSrc s = some x → x.2.2.2 ≤ s.length
  inlineCall : ∀ s x, R.inlineCall s = some x → x.2.2.2.2 ≤ s.length

/-- Bytes of the input: asterisk b o l d asterisk. -/
def exBold : Bstr := [42, 98, 111, 108, 100, 42]

/-- Bytes of the slice: equals v e r b a t i m equals. -/
def exVerb : Bstr := [61, 118, 101, 114, 98, 97, 116, 105, 109, 61]

/-- Bytes of the verbatim body: v e r b a t i m. -/
def exVerbBody : Bstr := [118, 101, 114, 98, 97, 116, 105, 109]

/-- Bytes of the input: N o r m a l space equals v e r b a t i m equals. -/
def exNormal : Bstr :=
  [78, 111, 114, 109, 97, 108, 32, 61, 118, 101, 114, 98, 97, 116, 105, 109, 61]

/-- Bytes of the prefix: N o r m a l space. -/
def exNormalPre : Bstr := [78, 111, 114, 109, 97, 108, 32]

/-- Bytes of the input: h e l l o space w o r l d. -/
def exHello : Bstr := [104, 101, 108, 108, 111, 32, 119, 111, 114, 108, 100]

/-- Bytes of the input: a comma asterisk b o l d asterisk — an emphasis
construct at position 2 whose immediately preceding byte is a comma. -/
def exComma : Bstr := [97, 44, 42, 98, 111, 108, 100, 42]

/-- Bytes of the input: a b c space period (a trigger byte near the end). -/
def exShort : Bstr := [97, 98, 99, 32, 46]

/-- Length stored in the optional trailing pair of a scan result. -/
def optLen : Option (Object × Nat) → Nat
  | none => 0
  | some x => x.2

/-- Companion to `parseLoop` with identical control flow: it reports the
absolute position of the byte whose recognizer accepted, together with the
accepted object and consumed length, or `none` when the scan ends in the
whole-input Text fallback. -/
def acceptedAt (R : Recognizers) (src : Bstr) : Nat → Nat → Option (Nat × Object × Nat)
  | 0, _ => none
  | fuel + 1, pos =>
    match (if pos = 0 then some 0 else bsFind (src.drop pos)) with
    | none => none
    | some off =>
      let p := pos + off
      if src.length - p < 3 then none
      else
        match dispatch R src p with
        | some (obj, mlen, q) => some (q, obj, mlen)
        | none => acceptedAt R src fuel (p + 1)

/-- Bytes of the input: open bracket f n colon 1 close bracket. -/
def exFnRef : Bstr := [91, 102, 110, 58, 49, 93]

/-- A recognizer bundle whose footnote-reference recognizer accepts
unconditionally with label byte 1 and consumed length 6; all other
recognizers behave as in `Rspec`. -/
def RecFn : Recognizers := { Rspec with fnRef := fun _ => some (some [49], none, 6) }

/-- A link recognizer that always accepts, with path byte 120 and length 2. -/
def lkAccept : Bstr → Option (Bstr × Option Bstr × Nat) := fun _ => some ([120], none, 2)

/-- A cookie recognizer that always accepts, with payload byte 121 and length 3. -/
def ckAccept : Bstr → Option (Bstr × Nat) := fun _ => some ([121], 3)

/-- UTF-8 continuation-byte test: 128 ≤ b < 192. -/
def contB (b : Nat) : Bool := 128 ≤ b && b < 192

/-- Rust `str::is_char_boundary` on byte strings: position 0, the end of
the string, or any in-bounds byte that is not a continuation byte. -/
def boundaryB (l : Bstr) (p : Nat) : Bool :=
  p == 0 || p == l.length || (decide (p < l.length) && !contB (l.getD p 0))

/-- Helper for UTF-8 validity: `k` is the number of continuation bytes
still expected.  A fresh byte is ASCII or a lead byte of a 2-, 3- or
4-byte encoding (lead ranges 194-223, 224-239, 240-244). -/
def utf8Run : Nat → Bstr → Bool
  | 0, [] => true
  | _ + 1, [] => false
  | 0, b :: rest =>
    if b < 128 then utf8Run 0 rest
    else if 194 ≤ b ∧ b < 224 then utf8Run 1 rest
    else if 224 ≤ b ∧ b < 240 then utf8Run 2 rest
    else if 240 ≤ b ∧ b < 245 then utf8Run 3 rest
    else false
  | k + 1, b :: rest => contB b && utf8Run k rest

/-- UTF-8 validity of a byte string. -/
def utf8B (l : Bstr) : Bool := utf8Run 0 l

/-- Checked byte indexing `bytes[i]`: `none` models an out-of-bounds panic. -/
def idxChk (l : Bstr) (i : Nat) : Option Nat := l[i]?

/-- Checked string slicing `&s[a..b]`: Rust panics unless `a ≤ b` and both
ends are char boundaries; on success the value is the byte sub-list. -/
def sliceChk (l : Bstr) (a b : Nat) : Option Bstr :=
  if a ≤ b && boundaryB l a && boundaryB l b then some ((l.drop a).take (b - a))
  else none

/-- Checked suffix slice `&s[a..]`. -/
def sliceFrom (l : Bstr) (a : Nat) : Option Bstr := sliceChk l a l.length

/-- Checked byte-slice suffix `&bytes[a..]` (bounds check only: byte slices
have no char-boundary requirement). -/
def bsliceFrom (l : Bstr) (a : Nat) : Option Bstr :=
  if a ≤ l.length then some (l.drop a) else none

/-- `parse_text_markup` with its byte access and string slice checked: the
outer `none` models a panic, `some none` an ordinary recognizer miss. -/
def parse_text_markupChk (R : Recognizers) (s : Bstr) : Option (Option (Object × Nat)) :=
  match idxChk s 0 with
  | none => none
  | some b =>
    if b = 42 then some ((R.emphasis s 42).map (fun e => (Object.Bold e, 1)))
    else if b = 43 then some ((R.emphasis s 43).map (fun e => (Object.Strike e, 1)))
    else if b = 47 then some ((R.emphasis s 47).map (fun e => (Object.Italic e, 1)))
    else if b = 95 then some ((R.emphasis s 95).map (fun e => (Object.Underline e, 1)))
    else if b = 61 then
      match R.emphasis s 61 with
      | none => some none
      | some e => (sliceChk s 1 e).map (fun body => some (Object.Verbatim body, e + 1))
    else if b = 126 then
      match R.emphasis s 126 with
      | none => some none
      | some e => (sliceChk s 1 e).map (fun body => some (Object.Code body, e + 1))
    else if b = 115 ∧ srcPre.isPrefixOf s then
      some ((R.inlineSrc s).map (fun x => (Object.InlineSrc x.1 x.2.1 x.2.2.1, x.2.2.2)))
    else if b = 99 ∧ callPre.isPrefixOf s then
      some ((R.inlineCall s).map
        (fun x => (Object.InlineCall x.1 x.2.1 x.2.2.1 x.2.2.2.1, x.2.2.2.2)))
    else some none

/-- The per-byte dispatcher with every access checked.  The slice and the
three byte reads of the Rust arm guards are hoisted to the front: the
scanner only dispatches under its at-least-3-bytes guard, which makes all
of them in bounds (Rust reads a per-arm subset of them). -/
def dispatchChk (R : Recognizers) (src : Bstr) (pos : Nat) :
    Option (Option (Object × Nat × Nat)) :=
  match sliceFrom src pos, idxChk src pos, idxChk src (pos + 1), idxChk src (pos + 2) with
  | some tail, some b, some b1, some b2 =>
    if b = 64 ∧ b1 = 64 then
      some ((R.snippet tail).map (fun x => (Object.Snippet x.1 x.2.1, x.2.2, pos)))
    else if b = 123 ∧ b1 = 123 ∧ b2 = 123 then
      some ((R.macros tail).map (fun x => (Object.Macros x.1 x.2.1, x.2.2, pos)))
    else if b = 60 ∧ b1 = 60 then
      if b2 = 60 then
        some ((R.radioTarget tail).map (fun x => (Object.RadioTarget x.1, x.2, pos)))
      else if b2 ≠ 10 then
        some ((R.target tail).map (fun x => (Object.Target x.1, x.2, pos)))
      else some none
    else if b = 91 then
      match sliceChk tail 1 tail.length with
      | none => none
      | some t1 =>
        some ((if fnPre.isPrefixOf t1 then
            (R.fnRef tail).map (fun x => (Object.FnRef x.1 x.2.1, x.2.2, pos))
          else none).orElse (fun _ =>
          (if b1 = 91 then
              (R.link tail).map (fun x => (Object.Link x.1 x.2.1, x.2.2, pos))
            else none).orElse (fun _ =>
            (R.cookie tail).map (fun x => (Object.Cookie x.1, x.2, pos)))))
    else if contextByte b then
      match sliceChk tail 1 tail.length with
      | none => none
      | some t1 =>
        match parse_text_markupChk R t1 with
        | none => none
        | some r => some (r.map (fun x => (x.1, x.2, pos + 1)))
    else
      match parse_text_markupChk R tail with
      | none => none
      | some r => some (r.map (fun x => (x.1, x.2, pos)))
  | _, _, _, _ => none

/-- The `brk!` packaging with the `&src[0..p]` slice checked. -/
def brkChk (src : Bstr) (obj : Object) (off p : Nat) :
    Option (Object × Nat × Option (Object × Nat)) :=
  if p = 0 then some (obj, off, none)
  else (sliceChk src 0 p).map (fun pre => (Object.Text pre, p, some (obj, off)))

/-- The scan loop with every access checked: `none` models a panic. -/
def parseLoopChk (R : Recognizers) (src : Bstr) :
    Nat → Nat → Option (Object × Nat × Option (Object × Nat))
  | 0, _ => some (Object.Text src, src.length, none)
  | fuel + 1, pos =>
    match (if pos = 0 then some (some 0) else (bsliceFrom src pos).map bsFind) with
    | none => none
    | some none => some (Object.Text src, src.length, none)
    | some (some off) =>
      let p := pos + off
      if src.length - p < 3 then some (Object.Text src, src.length, none)
      else
        match dispatchChk R src p with
        | none => none
        | some none => parseLoopChk R src fuel (p + 1)
        | some (some (obj, mlen, q)) => brkChk src obj mlen q

/-- The entry point with every access checked. -/
def parseChk (R : Recognizers) (src : Bstr) : Option (Object × Nat × Option (Object × Nat)) :=
  parseLoopChk R src (src.length + 1) 0

theorem contract_Rspec : Contract Rspec := by
  constructor <;> intro s
  case emphasis =>
    intro m e h
    simp only [Rspec, emphSpec] at h
    split at h
    · exact absurd h (by simp)
    · have hmem := List.mem_of_find?_eq_some h
      have hp := List.find?_some h
      simp only [Bool.and_eq_true, decide_eq_true_eq] at hp
      refine ⟨by omega, List.mem_range.mp hmem, hp.1.1.2⟩
  all_goals intro x h; exact absurd h (by simp [Rspec])

theorem bsFind_eq_none (l : Bstr) (h : ∀ b ∈ l, isTrigger b = false) : bsFind l = none := by
  induction l with
  | nil => rfl
  | cons b r ih =>
    simp [bsFind, h b (by simp), ih (fun x hx => h x (by simp [hx]))]

/-- Claim C3: at any candidate position delivered by the classifier where
fewer than 3 bytes remain to the end of input, the scan terminates
immediately and returns the entire input as Text, even when the position
is positive. -/
theorem c3_short_remainder_text (R : Recognizers) (src : Bstr) (fuel pos off : Nat)
    (h : (if pos = 0 then some 0 else bsFind (src.drop pos)) = some off)
    (hshort : src.length - (pos + off) < 3) :
    parseLoop R src (fuel + 1) pos = (Object.Text src, src.length, none) := by
  simp [parseLoop, h, hshort]

theorem c3_short_remainder_text_witness :
    parseLoop Rspec exShort 1 1 = (Object.Text exShort, 5, none) :=
  c3_short_remainder_text Rspec exShort 0 1 2 (by decide) (by decide)

/-- Claim C5: under the emphasis-matcher contract value for the verbatim
slice (closing offset 9), scanning the Normal-verbatim input puts the
leading space inside the Text prefix, extracts the Verbatim payload
strictly between the two markers, and reports consumed length end + 1. -/
theorem c5_context_byte_consumption (R : Recognizers)
    (h : R.emphasis exVerb 61 = some 9) :
    parse R exNormal =
      (Object.Text exNormalPre, 7, some (Object.Verbatim exVerbBody, 10)) := by
  simp only [exVerb] at h
  simp [parse, parseLoop, dispatch, parse_text_markup, bsFind, isTrigger, contextByte,
    brkResult, exNormal, exNormalPre, exVerbBody, h]

theorem c5_context_byte_consumption_witness :
    parse Rspec exNormal =
      (Object.Text exNormalPre, 7, some (Object.Verbatim exVerbBody, 10)) :=
  c5_context_byte_consumption Rspec (by decide)

/-- Claim C7 (code bug witness): the comma is listed as a context byte in
the dispatch arm but is missing from the jetscii trigger-byte set, so a
markup construct at position 2 whose preceding byte is a comma is never
found: the scan returns the whole input as Text for every recognizer
bundle, even though the spec-contract emphasis matcher accepts the bold
span that starts right after the comma. -/
theorem c7_comma_context_lost :
    (∀ R : Recognizers, parse R exComma = (Object.Text exComma, 8, none)) ∧
      emphSpec exBold 42 = some 5 ∧ contextByte 44 = true ∧ isTrigger 44 = false := by
  refine ⟨fun R => ?_, by decide, by decide, by decide⟩
  simp [parse, parseLoop, dispatch, parse_text_markup, bsFind, isTrigger, contextByte,
    exComma]

/-- Claim C8 counterexample: the bold input contains no trigger bytes at
all, yet with the spec-contract emphasis matcher the scan does not return
the whole input as Text — position 0 is always a candidate, so the Bold
object is matched there instead. -/
theorem c8_counterexample :
    exBold.all (fun b => !isTrigger b) = true ∧
      parse Rspec exBold ≠ (Object.Text exBold, 6, none) := by decide

/-- Claim C8 (amended): for input containing no trigger bytes, whenever
the dispatcher also finds no construct at position 0, the scan returns the
whole input as Text; in particular the hello-world input gives
(Text, 11, none) for every recognizer bundle, so the scan always produces
a result. -/
theorem c8_no_trigger_fallback :
    (∀ (R : Recognizers) (src : Bstr), src.all (fun b => !isTrigger b) = true →
        dispatch R src 0 = none →
        parse R src = (Object.Text src, src.length, none)) ∧
      (∀ R : Recognizers, parse R exHello = (Object.Text exHello, 11, none)) := by
  refine ⟨fun R src hall hdisp => ?_, fun R => ?_⟩
  · have hmf : ∀ b ∈ src, isTrigger b = false := by
      intro b hb; simpa using List.all_eq_true.mp hall b hb
    have hnone : bsFind (src.drop 1) = none :=
      bsFind_eq_none _ (fun b hb => hmf b (List.mem_of_mem_drop hb))
    by_cases hlen3 : src.length < 3
    · simp [parse, parseLoop, hlen3]
    · obtain ⟨k, hk⟩ : ∃ k, src.length = k + 1 := ⟨src.length - 1, by omega⟩
      rw [List.drop_one] at hnone
      simp only [parse, parseLoop, hk]
      simp [hdisp, hlen3, hnone, parseLoop, ← hk]
  · simp [parse, parseLoop, dispatch, parse_text_markup, bsFind, isTrigger, contextByte,
      exHello]

theorem c8_no_trigger_fallback_witness :
    parse Rspec exHello = (Object.Text exHello, 11, none) :=
  c8_no_trigger_fallback.2 Rspec

/-- Claim C4: at a candidate byte that is an open bracket, the recognizers
are tried in the fixed order footnote-reference (only under the fn-colon
prefix), then link (only when the second byte is also an open bracket),
then cookie, first success winning: an accepting footnote recognizer
decides the result whatever the link and cookie recognizers would say, a
rejected footnote attempt still falls through to link and then cookie. -/
theorem c4_bracket_priority (R : Recognizers) (src : Bstr) (pos : Nat)
    (hb : src.getD pos 0 = 91) :
    (∀ l d off, fnPre.isPrefixOf (src.drop (pos + 1)) = true →
        R.fnRef (src.drop pos) = some (l, d, off) →
        ∀ lk ck, dispatch { R with link := lk, cookie := ck } src pos =
          some (Object.FnRef l d, off, pos)) ∧
      (∀ path desc off,
        (fnPre.isPrefixOf (src.drop (pos + 1)) = false ∨
          R.fnRef (src.drop pos) = none) →
        src.getD (pos + 1) 0 = 91 →
        R.link (src.drop pos) = some (path, desc, off) →
        ∀ ck, dispatch { R with cookie := ck } src pos =
          some (Object.Link path desc, off, pos)) ∧
      ((fnPre.isPrefixOf (src.drop (pos + 1)) = false ∨
          R.fnRef (src.drop pos) = none) →
        (src.getD (pos + 1) 0 ≠ 91 ∨ R.link (src.drop pos) = none) →
        dispatch R src pos =
          (R.cookie (src.drop pos)).map (fun x => (Object.Cookie x.1, x.2, pos))) := by
  have hb' : src[pos]?.getD 0 = 91 := by simpa using hb
  refine ⟨fun l d off hpre hfn lk ck => ?_, fun path desc off hfail hsec hlk ck => ?_,
    fun hfail1 hfail2 => ?_⟩
  · have hpre' : fnPre <+: List.drop (pos + 1) src := by simpa using hpre
    simp [dispatch, hb', hpre', hfn]
  · have hsec' : src[pos + 1]?.getD 0 = 91 := by simpa using hsec
    rcases hfail with hpre | hfn0
    · have hpre' : ¬ fnPre <+: List.drop (pos + 1) src := by
        simp [← List.isPrefixOf_iff_prefix, hpre]
      simp [dispatch, hb', hpre', hsec', hlk]
    · simp [dispatch, hb', hfn0, hsec', hlk]
  · rcases hfail1 with hpre | hfn0 <;> rcases hfail2 with hsec | hlk0
    · have hpre' : ¬ fnPre <+: List.drop (pos + 1) src := by
        simp [← List.isPrefixOf_iff_prefix, hpre]
      have hsec' : ¬ src[pos + 1]?.getD 0 = 91 := by simpa using hsec
      simp [dispatch, hb', hpre', hsec']
    · have hpre' : ¬ fnPre <+: List.drop (pos + 1) src := by
        simp [← List.isPrefixOf_iff_prefix, hpre]
      simp [dispatch, hb', hpre', hlk0]
    · have hsec' : ¬ src[pos + 1]?.getD 0 = 91 := by simpa using hsec
      simp [dispatch, hb', hfn0, hsec']
    · simp [dispatch, hb', hfn0, hlk0]

theorem c4_bracket_priority_witness :
    dispatch { RecFn with link := lkAccept, cookie := ckAccept } exFnRef 0 =
      some (Object.FnRef (some [49]) none, 6, 0) :=
  (c4_bracket_priority RecFn exFnRef 0 (by decide)).1 (some [49]) none 6 (by decide)
    (by decide) lkAccept ckAccept

theorem markup_bold_inv (R : Recognizers) (s : Bstr) (e n : Nat)
    (h : parse_text_markup R s = some (Object.Bold e, n)) :
    n = 1 ∧ R.emphasis s 42 = some e := by
  simp only [parse_text_markup] at h
  split_ifs at h <;> simp_all
  obtain ⟨a, ha, rfl, rfl⟩ := h
  exact ⟨rfl, ha⟩

theorem markup_strike_inv (R : Recognizers) (s : Bstr) (e n : Nat)
    (h : parse_text_markup R s = some (Object.Strike e, n)) :
    n = 1 ∧ R.emphasis s 43 = some e := by
  simp only [parse_text_markup] at h
  split_ifs at h <;> simp_all
  obtain ⟨a, ha, rfl, rfl⟩ := h
  exact ⟨rfl, ha⟩

theorem markup_italic_inv (R : Recognizers) (s : Bstr) (e n : Nat)
    (h : parse_text_markup R s = some (Object.Italic e, n)) :
    n = 1 ∧ R.emphasis s 47 = some e := by
  simp only [parse_text_markup] at h
  split_ifs at h <;> simp_all
  obtain ⟨a, ha, rfl, rfl⟩ := h
  exact ⟨rfl, ha⟩

theorem markup_underline_inv (R : Recognizers) (s : Bstr) (e n : Nat)
    (h : parse_text_markup R s = some (Object.Underline e, n)) :
    n = 1 ∧ R.emphasis s 95 = some e := by
  simp only [parse_text_markup] at h
  split_ifs at h <;> simp_all
  obtain ⟨a, ha, rfl, rfl⟩ := h
  exact ⟨rfl, ha⟩

/-- Claim C6: with the matcher accepting the bold slice at offset 5,
scanning the bold input gives (Bold 5, 1, none); and for every slice on
which the markup-start dispatcher yields one of the four emphasis variants,
the consumed length is exactly 1 and the recorded end offset is the
matcher's answer, which under the contract is the strictly positive,
in-bounds offset of the closing marker byte within the slice. -/
theorem c6_emphasis_consumes_one :
    (∀ R : Recognizers, R.emphasis exBold 42 = some 5 →
        parse R exBold = (Object.Bold 5, 1, none)) ∧
      (∀ (R : Recognizers) (s : Bstr) (e n : Nat), Contract R →
          parse_text_markup R s = some (Object.Bold e, n) →
          n = 1 ∧ 0 < e ∧ e < s.length ∧ s.getD e 0 = 42) ∧
      (∀ (R : Recognizers) (s : Bstr) (e n : Nat), Contract R →
          parse_text_markup R s = some (Object.Strike e, n) →
          n = 1 ∧ 0 < e ∧ e < s.length ∧ s.getD e 0 = 43) ∧
      (∀ (R : Recognizers) (s : Bstr) (e n : Nat), Contract R →
          parse_text_markup R s = some (Object.Italic e, n) →
          n = 1 ∧ 0 < e ∧ e < s.length ∧ s.getD e 0 = 47) ∧
      (∀ (R : Recognizers) (s : Bstr) (e n : Nat), Contract R →
          parse_text_markup R s = some (Object.Underline e, n) →
          n = 1 ∧ 0 < e ∧ e < s.length ∧ s.getD e 0 = 95) := by
  refine ⟨fun R h => ?_, fun R s e n hC h => ?_, fun R s e n hC h => ?_,
    fun R s e n hC h => ?_, fun R s e n hC h => ?_⟩
  · simp only [exBold] at h
    simp [parse, parseLoop, dispatch, parse_text_markup, bsFind, isTrigger, contextByte,
      brkResult, exBold, h]
  · obtain ⟨hn, he⟩ := markup_bold_inv R s e n h
    obtain ⟨h1, h2, h3⟩ := hC.emphasis s 42 e he
    exact ⟨hn, h1, h2, h3⟩
  · obtain ⟨hn, he⟩ := markup_strike_inv R s e n h
    obtain ⟨h1, h2, h3⟩ := hC.emphasis s 43 e he
    exact ⟨hn, h1, h2, h3⟩
  · obtain ⟨hn, he⟩ := markup_italic_inv R s e n h
    obtain ⟨h1, h2, h3⟩ := hC.emphasis s 47 e he
    exact ⟨hn, h1, h2, h3⟩
  · obtain ⟨hn, he⟩ := markup_underline_inv R s e n h
    obtain ⟨h1, h2, h3⟩ := hC.emphasis s 95 e he
    exact ⟨hn, h1, h2, h3⟩

theorem markup_inv (R : Recognizers) (s : Bstr) (x : Object × Nat)
    (h : parse_text_markup R s = some x) :
    x.1.isText = false ∧ (Contract R → 0 < s.length ∧ x.2 ≤ s.length) := by
  have hlen : ∀ c : Nat, s.getD 0 0 = c → c ≠ 0 → 0 < s.length := by
    intro c hc hc0
    by_contra hge
    rw [List.getD_eq_default _ _ (by omega)] at hc
    omega
  simp only [parse_text_markup] at h
  split_ifs at h with h1 h2 h3 h4 h5 h6 h7 h8
  · simp only [Option.map_eq_some'] at h
    obtain ⟨a, ha, rfl⟩ := h
    exact ⟨rfl, fun hC => ⟨hlen 42 h1 (by omega), by
      have := (hC.emphasis s 42 a ha).2.1; show 1 ≤ s.length; omega⟩⟩
  · simp only [Option.map_eq_some'] at h
    obtain ⟨a, ha, rfl⟩ := h
    exact ⟨rfl, fun hC => ⟨hlen 43 h2 (by omega), by
      have := (hC.emphasis s 43 a ha).2.1; show 1 ≤ s.length; omega⟩⟩
  · simp only [Option.map_eq_some'] at h
    obtain ⟨a, ha, rfl⟩ := h
    exact ⟨rfl, fun hC => ⟨hlen 47 h3 (by omega), by
      have := (hC.emphasis s 47 a ha).2.1; show 1 ≤ s.length; omega⟩⟩
  · simp only [Option.map_eq_some'] at h
    obtain ⟨a, ha, rfl⟩ := h
    exact ⟨rfl, fun hC => ⟨hlen 95 h4 (by omega), by
      have := (hC.emphasis s 95 a ha).2.1; show 1 ≤ s.length; omega⟩⟩
  · simp only [Option.map_eq_some'] at h
    obtain ⟨a, ha, rfl⟩ := h
    exact ⟨rfl, fun hC => ⟨hlen 61 h5 (by omega), by
      have := (hC.emphasis s 61 a ha).2.1; show a + 1 ≤ s.length; omega⟩⟩
  · simp only [Option.map_eq_some'] at h
    obtain ⟨a, ha, rfl⟩ := h
    exact ⟨rfl, fun hC => ⟨hlen 126 h6 (by omega), by
      have := (hC.emphasis s 126 a ha).2.1; show a + 1 ≤ s.length; omega⟩⟩
  · simp only [Option.map_eq_some'] at h
    obtain ⟨a, ha, rfl⟩ := h
    exact ⟨rfl, fun hC => ⟨hlen 115 h7.1 (by omega), hC.inlineSrc s a ha⟩⟩
  · simp only [Option.map_eq_some'] at h
    obtain ⟨a, ha, rfl⟩ := h
    exact ⟨rfl, fun hC => ⟨hlen 99 h8.1 (by omega), hC.inlineCall s a ha⟩⟩

theorem pos_add_le (src : Bstr) (pos y : Nat) (hp : pos < src.length)
    (hy : y ≤ (src.drop pos).length) : pos < src.length ∧ pos + y ≤ src.length := by
  rw [List.length_drop] at hy
  exact ⟨hp, by omega⟩

theorem dispatch_shape (R : Recognizers) (src : Bstr) (pos : Nat) (obj : Object)
    (mlen q : Nat) (h : dispatch R src pos = some (obj, mlen, q)) :
    (q = pos ∨ q = pos + 1) ∧ obj.isText = false ∧
      (Contract R → q < src.length ∧ q + mlen ≤ src.length) := by
  have hlen : ∀ c : Nat, src.getD pos 0 = c → c ≠ 0 → pos < src.length := by
    intro c hc hc0
    by_contra hge
    rw [List.getD_eq_default _ _ (by omega)] at hc
    omega
  simp only [dispatch] at h
  split_ifs at h with h1 h2 h3 h4 h5 h6 h7 h8 h9 h10
  · simp only [Option.map_eq_some'] at h
    obtain ⟨y, hy, heq⟩ := h
    cases heq
    exact ⟨Or.inl rfl, rfl, fun hC =>
      pos_add_le src pos _ (hlen 64 h1.1 (by omega)) (hC.snippet _ y hy)⟩
  · simp only [Option.map_eq_some'] at h
    obtain ⟨y, hy, heq⟩ := h
    cases heq
    exact ⟨Or.inl rfl, rfl, fun hC =>
      pos_add_le src pos _ (hlen 123 h2.1 (by omega)) (hC.macros _ y hy)⟩
  · simp only [Option.map_eq_some'] at h
    obtain ⟨y, hy, heq⟩ := h
    cases heq
    exact ⟨Or.inl rfl, rfl, fun hC =>
      pos_add_le src pos _ (hlen 60 h3.1 (by omega)) (hC.radioTarget _ y hy)⟩
  · simp only [Option.map_eq_some'] at h
    obtain ⟨y, hy, heq⟩ := h
    cases heq
    exact ⟨Or.inl rfl, rfl, fun hC =>
      pos_add_le src pos _ (hlen 60 h3.1 (by omega)) (hC.target _ y hy)⟩
  · simp only [Option.orElse_eq_some', Option.map_eq_some', Option.map_eq_none'] at h
    rcases h with ⟨y, hy, heq⟩ | ⟨-, ⟨y, hy, heq⟩ | ⟨-, y, hy, heq⟩⟩
    · cases heq
      exact ⟨Or.inl rfl, rfl, fun hC =>
        pos_add_le src pos _ (hlen 91 h6 (by omega)) (hC.fnRef _ y hy)⟩
    · cases heq
      exact ⟨Or.inl rfl, rfl, fun hC =>
        pos_add_le src pos _ (hlen 91 h6 (by omega)) (hC.link _ y hy)⟩
    · cases heq
      exact ⟨Or.inl rfl, rfl, fun hC =>
        pos_add_le src pos _ (hlen 91 h6 (by omega)) (hC.cookie _ y hy)⟩
  · simp only [Option.orElse_eq_some', Option.map_eq_some', Option.map_eq_none',
      reduceCtorEq, false_and, false_or, and_true, true_and, or_false] at h
    rcases h with ⟨y, hy, heq⟩ | ⟨-, y, hy, heq⟩
    · cases heq
      exact ⟨Or.inl rfl, rfl, fun hC =>
        pos_add_le src pos _ (hlen 91 h6 (by omega)) (hC.fnRef _ y hy)⟩
    · cases heq
      exact ⟨Or.inl rfl, rfl, fun hC =>
        pos_add_le src pos _ (hlen 91 h6 (by omega)) (hC.cookie _ y hy)⟩
  · simp only [Option.orElse_eq_some', Option.map_eq_some', Option.map_eq_none',
      reduceCtorEq, false_and, false_or, and_true, true_and, or_false] at h
    rcases h with ⟨y, hy, heq⟩ | ⟨-, y, hy, heq⟩
    · cases heq
      exact ⟨Or.inl rfl, rfl, fun hC =>
        pos_add_le src pos _ (hlen 91 h6 (by omega)) (hC.link _ y hy)⟩
    · cases heq
      exact ⟨Or.inl rfl, rfl, fun hC =>
        pos_add_le src pos _ (hlen 91 h6 (by omega)) (hC.cookie _ y hy)⟩
  · simp only [Option.orElse_eq_some', Option.map_eq_some', Option.map_eq_none',
      reduceCtorEq, false_and, false_or, and_true, true_and, or_false] at h
    obtain ⟨y, hy, heq⟩ := h
    cases heq
    exact ⟨Or.inl rfl, rfl, fun hC =>
      pos_add_le src pos _ (hlen 91 h6 (by omega)) (hC.cookie _ y hy)⟩
  · simp only [Option.map_eq_some'] at h
    obtain ⟨y, hy, heq⟩ := h
    cases heq
    obtain ⟨ht, hrest⟩ := markup_inv R _ y hy
    refine ⟨Or.inr rfl, ht, fun hC => ?_⟩
    obtain ⟨h0, hb⟩ := hrest hC
    rw [List.drop_drop] at h0 hb
    rw [List.length_drop] at h0 hb
    constructor <;> omega
  · simp only [Option.map_eq_some'] at h
    obtain ⟨y, hy, heq⟩ := h
    cases heq
    obtain ⟨ht, hrest⟩ := markup_inv R _ y hy
    refine ⟨Or.inl rfl, ht, fun hC => ?_⟩
    obtain ⟨h0, hb⟩ := hrest hC
    rw [List.length_drop] at h0 hb
    constructor <;> omega

theorem acceptedAt_parseLoop (R : Recognizers) (src : Bstr) :
    ∀ fuel pos p obj mlen, acceptedAt R src fuel pos = some (p, obj, mlen) →
      parseLoop R src fuel pos = brkResult src obj mlen p := by
  intro fuel
  induction fuel with
  | zero => intro pos p obj mlen h; simp [acceptedAt] at h
  | succ f ih =>
    intro pos p obj mlen h
    simp only [acceptedAt] at h
    simp only [parseLoop]
    cases hcl : (if pos = 0 then some 0 else bsFind (src.drop pos)) with
    | none => rw [hcl] at h; simp at h
    | some off =>
      rw [hcl] at h
      dsimp only at h ⊢
      by_cases hg : src.length - (pos + off) < 3
      · rw [if_pos hg] at h; simp at h
      · rw [if_neg hg] at h ⊢
        cases hd : dispatch R src (pos + off) with
        | none =>
          rw [hd] at h
          exact ih (pos + off + 1) p obj mlen h
        | some x =>
          obtain ⟨obj', mlen', q⟩ := x
          rw [hd] at h
          simp only [Option.some.injEq, Prod.mk.injEq] at h
          obtain ⟨rfl, rfl, rfl⟩ := h
          rfl

theorem parseLoop_fuel (R : Recognizers) (src : Bstr) :
    ∀ f g pos, src.length + 1 - pos ≤ f → f ≤ g →
      parseLoop R src g pos = parseLoop R src f pos := by
  intro f
  induction f with
  | zero =>
    intro g pos hf hg
    have hpos : src.length + 1 ≤ pos := by omega
    have hdrop : src.drop pos = [] := List.drop_eq_nil_of_le (by omega)
    cases g with
    | zero => rfl
    | succ g' =>
      simp only [parseLoop]
      rw [if_neg (by omega), hdrop]
      rfl
  | succ f' ih =>
    intro g pos hf hg
    obtain ⟨g', rfl⟩ : ∃ g', g = g' + 1 := ⟨g - 1, by omega⟩
    simp only [parseLoop]
    cases hcl : (if pos = 0 then some 0 else bsFind (src.drop pos)) with
    | none => rfl
    | some off =>
      dsimp only
      by_cases hguard : src.length - (pos + off) < 3
      · rw [if_pos hguard, if_pos hguard]
      · rw [if_neg hguard, if_neg hguard]
        cases hd : dispatch R src (pos + off) with
        | none => exact ih g' (pos + off + 1) (by omega) (by omega)
        | some x => rfl

theorem parseLoop_bound (R : Recognizers) (src : Bstr) (hC : Contract R) :
    ∀ fuel pos,
      (parseLoop R src fuel pos).2.1 + optLen (parseLoop R src fuel pos).2.2 ≤
        src.length := by
  intro fuel
  induction fuel with
  | zero => intro pos; simp [parseLoop, optLen]
  | succ f ih =>
    intro pos
    simp only [parseLoop]
    cases hcl : (if pos = 0 then some 0 else bsFind (src.drop pos)) with
    | none => simp [optLen]
    | some off =>
      dsimp only
      by_cases hguard : src.length - (pos + off) < 3
      · rw [if_pos hguard]; simp [optLen]
      · rw [if_neg hguard]
        cases hd : dispatch R src (pos + off) with
        | none => exact ih (pos + off + 1)
        | some x =>
          obtain ⟨obj, mlen, q⟩ := x
          have hs := (dispatch_shape R src (pos + off) obj mlen q hd).2.2 hC
          by_cases hq : q = 0
          · subst hq; simp [brkResult, optLen]; omega
          · simp [brkResult, hq, optLen]; omega

/-- Claim C2: the scan terminates — fuel equal to the input length plus one
is always enough, and any larger fuel gives the identical result — and
under the recognizer contracts the consumed length plus the optional
trailing length never exceeds the input length. -/
theorem c2_termination_and_bound (R : Recognizers) (src : Bstr) (hC : Contract R) :
    (∀ fuel, src.length + 1 ≤ fuel → parseLoop R src fuel 0 = parse R src) ∧
      (parse R src).2.1 + optLen (parse R src).2.2 ≤ src.length := by
  constructor
  · intro fuel hf
    rw [parse]
    exact parseLoop_fuel R src (src.length + 1) fuel 0 (by omega) hf
  · exact parseLoop_bound R src hC (src.length + 1) 0

theorem c2_termination_and_bound_witness :
    parseLoop Rspec exNormal 100 0 = parse Rspec exNormal ∧
      (parse Rspec exNormal).2.1 + optLen (parse Rspec exNormal).2.2 ≤
        exNormal.length :=
  ⟨(c2_termination_and_bound Rspec exNormal contract_Rspec).1 100 (by decide),
   (c2_termination_and_bound Rspec exNormal contract_Rspec).2⟩

theorem parseLoop_trailing (R : Recognizers) (src : Bstr) :
    ∀ fuel pos obj tlen, (parseLoop R src fuel pos).2.2 = some (obj, tlen) →
      ∃ p, 0 < p ∧ p < src.length ∧
        parseLoop R src fuel pos = (Object.Text (src.take p), p, some (obj, tlen)) ∧
        obj.isText = false := by
  intro fuel
  induction fuel with
  | zero => intro pos obj tlen h; simp [parseLoop] at h
  | succ f ih =>
    intro pos obj tlen h
    simp only [parseLoop] at h ⊢
    cases hcl : (if pos = 0 then some 0 else bsFind (src.drop pos)) with
    | none => rw [hcl] at h; simp at h
    | some off =>
      rw [hcl] at h
      dsimp only at h ⊢
      by_cases hguard : src.length - (pos + off) < 3
      · rw [if_pos hguard] at h; simp at h
      · rw [if_neg hguard] at h ⊢
        cases hd : dispatch R src (pos + off) with
        | none =>
          rw [hd] at h
          exact ih (pos + off + 1) obj tlen h
        | some x =>
          obtain ⟨obj', mlen', q⟩ := x
          rw [hd] at h
          have hs := dispatch_shape R src (pos + off) obj' mlen' q hd
          by_cases hq : q = 0
          · subst hq
            simp only [brkResult] at h
            simp at h
          · simp only [brkResult] at h ⊢
            rw [if_neg hq] at h ⊢
            simp only [Option.some.injEq, Prod.mk.injEq] at h
            obtain ⟨rfl, rfl⟩ := h
            refine ⟨q, by omega, ?_, rfl, hs.2.1⟩
            rcases hs.1 with rfl | rfl <;> omega

/-- Claim C9: whenever the scan result carries a trailing pair, the first
component is Text holding a non-empty proper leading part of the input
whose byte length equals the second component, and the trailing object is
itself never a Text variant. -/
theorem c9_trailing_invariant (R : Recognizers) (src : Bstr) (obj : Object) (tlen : Nat)
    (h : (parse R src).2.2 = some (obj, tlen)) :
    ∃ p, 0 < p ∧ p < src.length ∧ (src.take p).length = p ∧
      parse R src = (Object.Text (src.take p), p, some (obj, tlen)) ∧
      obj.isText = false := by
  obtain ⟨p, h1, h2, h3, h4⟩ := parseLoop_trailing R src (src.length + 1) 0 obj tlen h
  exact ⟨p, h1, h2, by simp [List.length_take]; omega, h3, h4⟩

theorem c9_trailing_invariant_witness :
    ∃ p, 0 < p ∧ p < exNormal.length ∧ (exNormal.take p).length = p ∧
      parse Rspec exNormal =
        (Object.Text (exNormal.take p), p, some (Object.Verbatim exVerbBody, 10)) ∧
      (Object.Verbatim exVerbBody).isText = false :=
  c9_trailing_invariant Rspec exNormal (Object.Verbatim exVerbBody) 10 (by decide)

/-- Claim C1: whenever the scan accepts a match whose examined byte sits at
absolute position p, the result is (object, matched_length, none) for
p = 0 and (Text of the first p bytes, p, some (object, matched_length))
for positive p — in particular a skipped context byte always ends up
inside the leading Text, never attached to the object. -/
theorem c1_offset_bookkeeping (R : Recognizers) (src : Bstr) (p : Nat) (obj : Object)
    (mlen : Nat) (h : acceptedAt R src (src.length + 1) 0 = some (p, obj, mlen)) :
    parse R src =
      if p = 0 then (obj, mlen, (none : Option (Object × Nat)))
      else (Object.Text (src.take p), p, some (obj, mlen)) := by
  rw [parse, acceptedAt_parseLoop R src (src.length + 1) 0 p obj mlen h, brkResult]

theorem c1_offset_bookkeeping_witness :
    parse Rspec exNormal =
      (Object.Text (exNormal.take 7), 7, some (Object.Verbatim exVerbBody, 10)) := by
  simpa using
    c1_offset_bookkeeping Rspec exNormal 7 (Object.Verbatim exVerbBody) 10 (by decide)

theorem c6_emphasis_consumes_one_witness :
    parse Rspec exBold = (Object.Bold 5, 1, none) ∧
      (1 = 1 ∧ 0 < 5 ∧ 5 < exBold.length ∧ exBold.getD 5 0 = 42) :=
  ⟨c6_emphasis_consumes_one.1 Rspec (by decide),
   c6_emphasis_consumes_one.2.1 Rspec exBold 5 1 contract_Rspec (by decide)⟩

theorem utf8Run_head0 (c : Nat) (r : Bstr) (h : utf8Run 0 (c :: r) = true) :
    contB c = false := by
  simp only [utf8Run] at h
  split_ifs at h with h1 h2 h3 h4
  · simp [contB]; omega
  · simp [contB]; omega
  · simp [contB]; omega
  · simp [contB]; omega

theorem utf8_no_cont_after_ascii :
    ∀ (l : Bstr) (k i : Nat), utf8Run k l = true → l.getD i 0 < 128 →
      i + 1 < l.length → contB (l.getD (i + 1) 0) = false := by
  intro l
  induction l with
  | nil => intro k i _ _ hi; simp at hi
  | cons b rest ih =>
    intro k i hv hasc hi
    cases k with
    | zero =>
      simp only [utf8Run] at hv
      split_ifs at hv with h1 h2 h3 h4
      · cases i with
        | zero =>
          simp only [List.getD_cons_succ]
          cases rest with
          | nil => simp at hi
          | cons c r => simpa using utf8Run_head0 c r hv
        | succ j =>
          simp only [List.getD_cons_succ] at hasc ⊢
          exact ih 0 j hv hasc (by simp at hi; omega)
      · cases i with
        | zero => simp only [List.getD_cons_zero] at hasc; omega
        | succ j =>
          simp only [List.getD_cons_succ] at hasc ⊢
          exact ih 1 j hv hasc (by simp at hi; omega)
      · cases i with
        | zero => simp only [List.getD_cons_zero] at hasc; omega
        | succ j =>
          simp only [List.getD_cons_succ] at hasc ⊢
          exact ih 2 j hv hasc (by simp at hi; omega)
      · cases i with
        | zero => simp only [List.getD_cons_zero] at hasc; omega
        | succ j =>
          simp only [List.getD_cons_succ] at hasc ⊢
          exact ih 3 j hv hasc (by simp at hi; omega)
    | succ m =>
      simp only [utf8Run, Bool.and_eq_true] at hv
      obtain ⟨hcb, hv'⟩ := hv
      cases i with
      | zero =>
        simp only [List.getD_cons_zero] at hasc
        simp [contB] at hcb
        omega
      | succ j =>
        simp only [List.getD_cons_succ] at hasc ⊢
        exact ih m j hv' hasc (by simp at hi; omega)

theorem bsFind_some (l : Bstr) :
    ∀ i, bsFind l = some i → i < l.length ∧ isTrigger (l.getD i 0) = true := by
  induction l with
  | nil => intro i h; simp [bsFind] at h
  | cons b rest ih =>
    intro i h
    simp only [bsFind] at h
    split_ifs at h with ht
    · simp only [Option.some.injEq] at h
      subst h
      simp [ht]
    · simp only [Option.map_eq_some'] at h
      obtain ⟨j, hj, rfl⟩ := h
      obtain ⟨h1, h2⟩ := ih j hj
      exact ⟨by simp; omega, by simpa using h2⟩

theorem isTrigger_lt (b : Nat) (h : isTrigger b = true) : b < 128 := by
  simp [isTrigger] at h
  rcases h with ((((((rfl | rfl) | rfl) | rfl) | rfl) | rfl) | rfl) | rfl <;> omega

theorem contextByte_lt (b : Nat) (h : contextByte b = true) : b < 128 := by
  simp [contextByte] at h
  rcases h with ((((rfl | rfl) | rfl) | rfl) | rfl) | rfl <;> omega

theorem getD_drop (l : Bstr) (n i : Nat) : (l.drop n).getD i 0 = l.getD (n + i) 0 := by
  simp [List.getD_eq_getElem?_getD, List.getElem?_drop]

theorem idxChk_eq (l : Bstr) (i : Nat) (h : i < l.length) :
    idxChk l i = some (l.getD i 0) := by
  simp [idxChk, List.getElem?_eq_getElem h, List.getD_eq_getElem _ 0 h]

theorem boundaryB_of_getD (l : Bstr) (p : Nat) (h : p < l.length)
    (hc : contB (l.getD p 0) = false) : boundaryB l p = true := by
  rw [List.getD_eq_getElem _ 0 h] at hc
  simp [boundaryB, h, hc]

theorem boundaryB_le (l : Bstr) (p : Nat) (h : boundaryB l p = true) : p ≤ l.length := by
  simp [boundaryB] at h
  rcases h with (rfl | rfl) | ⟨h1, _⟩ <;> omega

theorem sliceFrom_eq (l : Bstr) (a : Nat) (h : boundaryB l a = true) :
    sliceFrom l a = some (l.drop a) := by
  have ha := boundaryB_le l a h
  have hb2 : boundaryB l l.length = true := by simp [boundaryB]
  have hcond : (decide (a ≤ l.length) && boundaryB l a && boundaryB l l.length) = true := by
    simp [h, hb2, ha]
  rw [sliceFrom, sliceChk, if_pos hcond, List.take_of_length_le (by simp)]

theorem sliceTail (t : Bstr) (h1 : boundaryB t 1 = true) :
    sliceChk t 1 t.length = some (t.drop 1) := by
  have hle := boundaryB_le t 1 h1
  have hb2 : boundaryB t t.length = true := by simp [boundaryB]
  have hcond : (decide (1 ≤ t.length) && boundaryB t 1 && boundaryB t t.length) = true := by
    simp [h1, hb2, hle]
  rw [sliceChk, if_pos hcond, List.take_of_length_le (by simp)]

theorem parse_text_markupChk_eq (R : Recognizers) (src : Bstr) (a : Nat)
    (hu : utf8B src = true) (hC : Contract R) (ha : a < src.length) :
    parse_text_markupChk R (src.drop a) = some (parse_text_markup R (src.drop a)) := by
  have hlen : 0 < (src.drop a).length := by simp; omega
  have hidx : idxChk (src.drop a) 0 = some ((src.drop a).getD 0 0) := idxChk_eq _ 0 hlen
  have hb1 : (src.drop a).getD 0 0 < 128 → boundaryB (src.drop a) 1 = true := by
    intro hlt
    by_cases h1len : 1 = (src.drop a).length
    · rw [h1len]
      simp [boundaryB]
    · have h1lt : 1 < (src.drop a).length := by omega
      apply boundaryB_of_getD _ _ h1lt
      rw [getD_drop]
      apply utf8_no_cont_after_ascii src 0 a hu
      · rw [getD_drop] at hlt
        simpa using hlt
      · simp [List.length_drop] at h1lt
        omega
  simp only [parse_text_markupChk, parse_text_markup, hidx]
  split_ifs with h1 h2 h3 h4 h5 h6 h7 h8
  · rfl
  · rfl
  · rfl
  · rfl
  · cases he : R.emphasis (src.drop a) 61 with
    | none => rfl
    | some e =>
      obtain ⟨he0, helen, heq⟩ := hC.emphasis _ 61 e he
      have hbe : boundaryB (src.drop a) e = true := by
        apply boundaryB_of_getD _ _ helen
        rw [heq]
        rfl
      have hb1' := hb1 (by rw [h5]; omega)
      have hcond : (decide (1 ≤ e) && boundaryB (src.drop a) 1 &&
          boundaryB (src.drop a) e) = true := by
        simp [hb1', hbe]
        omega
      simp only [sliceChk]
      rw [if_pos hcond]
      rfl
  · cases he : R.emphasis (src.drop a) 126 with
    | none => rfl
    | some e =>
      obtain ⟨he0, helen, heq⟩ := hC.emphasis _ 126 e he
      have hbe : boundaryB (src.drop a) e = true := by
        apply boundaryB_of_getD _ _ helen
        rw [heq]
        rfl
      have hb1' := hb1 (by rw [h6]; omega)
      have hcond : (decide (1 ≤ e) && boundaryB (src.drop a) 1 &&
          boundaryB (src.drop a) e) = true := by
        simp [hb1', hbe]
        omega
      simp only [sliceChk]
      rw [if_pos hcond]
      rfl
  · rfl
  · rfl
  · rfl

theorem dispatch_succ_ctx (R : Recognizers) (src : Bstr) (pos : Nat) (obj : Object)
    (mlen : Nat) (h : dispatch R src pos = some (obj, mlen, pos + 1)) :
    contextByte (src.getD pos 0) = true := by
  simp only [dispatch] at h
  split_ifs at h with h1 h2 h3 h4 h5 h6 h7 h8 h9 h10
  · simp only [Option.map_eq_some'] at h
    obtain ⟨y, hy, heq⟩ := h
    exact absurd (congrArg (fun t => t.2.2) heq) (by simp)
  · simp only [Option.map_eq_some'] at h
    obtain ⟨y, hy, heq⟩ := h
    exact absurd (congrArg (fun t => t.2.2) heq) (by simp)
  · simp only [Option.map_eq_some'] at h
    obtain ⟨y, hy, heq⟩ := h
    exact absurd (congrArg (fun t => t.2.2) heq) (by simp)
  · simp only [Option.map_eq_some'] at h
    obtain ⟨y, hy, heq⟩ := h
    exact absurd (congrArg (fun t => t.2.2) heq) (by simp)
  · simp only [Option.orElse_eq_some', Option.map_eq_some', Option.map_eq_none'] at h
    rcases h with ⟨y, hy, heq⟩ | ⟨-, ⟨y, hy, heq⟩ | ⟨-, y, hy, heq⟩⟩ <;>
      exact absurd (congrArg (fun t => t.2.2) heq) (by simp)
  · simp only [Option.orElse_eq_some', Option.map_eq_some', Option.map_eq_none',
      reduceCtorEq, false_and, false_or, and_true, true_and, or_false] at h
    rcases h with ⟨y, hy, heq⟩ | ⟨-, y, hy, heq⟩ <;>
      exact absurd (congrArg (fun t => t.2.2) heq) (by simp)
  · simp only [Option.orElse_eq_some', Option.map_eq_some', Option.map_eq_none',
      reduceCtorEq, false_and, false_or, and_true, true_and, or_false] at h
    rcases h with ⟨y, hy, heq⟩ | ⟨-, y, hy, heq⟩ <;>
      exact absurd (congrArg (fun t => t.2.2) heq) (by simp)
  · simp only [Option.orElse_eq_some', Option.map_eq_some', Option.map_eq_none',
      reduceCtorEq, false_and, false_or, and_true, true_and, or_false] at h
    obtain ⟨y, hy, heq⟩ := h
    exact absurd (congrArg (fun t => t.2.2) heq) (by simp)
  · exact h10
  · simp only [Option.map_eq_some'] at h
    obtain ⟨y, hy, heq⟩ := h
    exact absurd (congrArg (fun t => t.2.2) heq) (by simp)

theorem brkChk_eq (src : Bstr) (obj : Object) (off p : Nat)
    (hb : boundaryB src p = true) :
    brkChk src obj off p = some (brkResult src obj off p) := by
  by_cases hp : p = 0
  · subst hp
    simp [brkChk, brkResult]
  · simp only [brkChk, brkResult, if_neg hp]
    have h0 : boundaryB src 0 = true := by simp [boundaryB]
    have hcond : (decide (0 ≤ p) && boundaryB src 0 && boundaryB src p) = true := by
      simp [h0, hb]
    simp only [sliceChk]
    rw [if_pos hcond]
    simp

theorem dispatchChk_eq (R : Recognizers) (src : Bstr) (pos : Nat)
    (hu : utf8B src = true) (hC : Contract R) (hg : 3 ≤ src.length - pos)
    (hbnd : boundaryB src pos = true) :
    dispatchChk R src pos = some (dispatch R src pos) := by
  have hp0 : pos < src.length := by omega
  have hp1 : pos + 1 < src.length := by omega
  have hp2 : pos + 2 < src.length := by omega
  have htail : sliceFrom src pos = some (src.drop pos) := sliceFrom_eq src pos hbnd
  have hidx0 := idxChk_eq src pos hp0
  have hidx1 := idxChk_eq src (pos + 1) hp1
  have hidx2 := idxChk_eq src (pos + 2) hp2
  have hb1tail : src.getD pos 0 < 128 → boundaryB (src.drop pos) 1 = true := by
    intro hlt
    apply boundaryB_of_getD _ 1 (by simp [List.length_drop]; omega)
    rw [getD_drop]
    exact utf8_no_cont_after_ascii src 0 pos hu hlt hp1
  simp only [dispatchChk, dispatch, htail, hidx0, hidx1, hidx2]
  by_cases c1 : src.getD pos 0 = 64 ∧ src.getD (pos + 1) 0 = 64
  · rw [if_pos c1, if_pos c1]
  · rw [if_neg c1, if_neg c1]
    by_cases c2 : src.getD pos 0 = 123 ∧ src.getD (pos + 1) 0 = 123 ∧
      src.getD (pos + 2) 0 = 123
    · rw [if_pos c2, if_pos c2]
    · rw [if_neg c2, if_neg c2]
      by_cases c3 : src.getD pos 0 = 60 ∧ src.getD (pos + 1) 0 = 60
      · rw [if_pos c3, if_pos c3]
        by_cases c4 : src.getD (pos + 2) 0 = 60
        · rw [if_pos c4, if_pos c4]
        · rw [if_neg c4, if_neg c4]
          by_cases c5 : src.getD (pos + 2) 0 ≠ 10
          · rw [if_pos c5, if_pos c5]
          · rw [if_neg c5, if_neg c5]
      · rw [if_neg c3, if_neg c3]
        by_cases c6 : src.getD pos 0 = 91
        · rw [if_pos c6, if_pos c6, sliceTail _ (hb1tail (by omega))]
        · rw [if_neg c6, if_neg c6]
          by_cases c7 : contextByte (src.getD pos 0) = true
          · rw [if_pos c7, if_pos c7, sliceTail _ (hb1tail (contextByte_lt _ c7))]
            dsimp only
            rw [List.drop_drop]
            rw [parse_text_markupChk_eq R src (pos + 1) hu hC (by omega)]
          · rw [if_neg c7, if_neg c7, parse_text_markupChk_eq R src pos hu hC hp0]

theorem contB_of_lt (b : Nat) (h : b < 128) : contB b = false := by
  simp [contB]
  omega

theorem dispatch_boundary (R : Recognizers) (src : Bstr) (pos : Nat) (obj : Object)
    (mlen q : Nat) (hu : utf8B src = true) (hg : 3 ≤ src.length - pos)
    (hbnd : boundaryB src pos = true)
    (hd : dispatch R src pos = some (obj, mlen, q)) : boundaryB src q = true := by
  rcases (dispatch_shape R src pos obj mlen q hd).1 with rfl | rfl
  · exact hbnd
  · have hctx := dispatch_succ_ctx R src pos obj mlen hd
    have hlt := contextByte_lt _ hctx
    apply boundaryB_of_getD _ _ (by omega)
    exact utf8_no_cont_after_ascii src 0 pos hu hlt (by omega)

theorem parseLoopChk_eq (R : Recognizers) (src : Bstr) (hu : utf8B src = true)
    (hC : Contract R) :
    ∀ fuel pos, pos ≤ src.length →
      parseLoopChk R src fuel pos = some (parseLoop R src fuel pos) := by
  intro fuel
  induction fuel with
  | zero => intro pos _; rfl
  | succ f ih =>
    intro pos hpos
    simp only [parseLoopChk, parseLoop]
    have hscr : (if pos = 0 then some (some 0) else (bsliceFrom src pos).map bsFind) =
        some (if pos = 0 then some 0 else bsFind (src.drop pos)) := by
      split_ifs
      · rfl
      · simp [bsliceFrom, hpos]
    rw [hscr]
    cases hcl : (if pos = 0 then some 0 else bsFind (src.drop pos)) with
    | none => rfl
    | some off =>
      have hbnd : boundaryB src (pos + off) = true := by
        by_cases hp0 : pos = 0
        · rw [if_pos hp0] at hcl
          simp only [Option.some.injEq] at hcl
          subst hcl
          subst hp0
          simp [boundaryB]
        · rw [if_neg hp0] at hcl
          obtain ⟨hlt, htrig⟩ := bsFind_some _ off hcl
          rw [getD_drop] at htrig
          apply boundaryB_of_getD
          · simp [List.length_drop] at hlt
            omega
          · exact contB_of_lt _ (isTrigger_lt _ htrig)
      dsimp only
      split_ifs with hg
      · rfl
      · rw [dispatchChk_eq R src (pos + off) hu hC (by omega) hbnd]
        cases hd : dispatch R src (pos + off) with
        | none => exact ih (pos + off + 1) (by omega)
        | some x =>
          obtain ⟨obj, mlen, q⟩ := x
          exact brkChk_eq src obj mlen q
            (dispatch_boundary R src (pos + off) obj mlen q hu (by omega) hbnd hd)

/-- Claim C10: for valid UTF-8 input and contract-obeying recognizers, the
fully checked scan — every byte index bounds-checked and every string slice
required to sit on char boundaries, exactly Rust's panicking checks —
returns the same result as the scan, wrapped in `some`: no access is out
of bounds, every slice boundary is a char boundary, and the scan never
panics. -/
theorem c10_no_panic (R : Recognizers) (src : Bstr) (hu : utf8B src = true)
    (hC : Contract R) : parseChk R src = some (parse R src) :=
  parseLoopChk_eq R src hu hC (src.length + 1) 0 (by omega)

theorem c10_no_panic_witness :
    parseChk Rspec exNormal = some (parse Rspec exNormal) :=
  c10_no_panic Rspec exNormal (by decide) contract_Rspec

end Orgize
